import Mathlib

/-!
Shallow embedding of the StockAnalyzer repository's crossover-detection core
(`src/app/data_fetcher.py` and the dashboard scan loop of `src/app/main.py`).

Prices are modelled as rational numbers; a pandas frame becomes a record of
columns, a NaN-bearing column becomes a list of options, and NaN-propagating
comparisons (every comparison against NaN is False) are modelled explicitly
on optional values.
-/

namespace StockAnalyzer

/-- The three values of the `'Crossover'` column built by the nested
`np.where` in `calculate_indicators` (data_fetcher.py lines 96-104). -/
inductive Cross where
  | NONE
  | GOLDEN
  | DEATH
deriving DecidableEq

/-- The smoothing factor of `Close.ewm(span=p, adjust=False)`:
`alpha = 2 / (span + 1)`. -/
def alpha (p : ℕ) : ℚ := 2 / (p + 1)

/-- One step of the `adjust=False` exponential-moving-average recurrence:
`y[t] = alpha * x[t] + (1 - alpha) * y[t-1]`. -/
def emaStep (p : ℕ) (prev x : ℚ) : ℚ := alpha p * x + (1 - alpha p) * prev

/-- The tail of the EMA column after the seed value `prev`. -/
def emaFrom (p : ℕ) (prev : ℚ) : List ℚ → List ℚ
  | [] => []
  | x :: xs => emaStep p prev x :: emaFrom p (emaStep p prev x) xs

/-- The column `df['Close'].ewm(span=p, adjust=False).mean()`
(data_fetcher.py line 92): seeded with the first close, then the
recurrence `emaStep` along the rest of the closes. -/
def emaList (p : ℕ) : List ℚ → List ℚ
  | [] => []
  | x :: xs => x :: emaFrom p x xs

/-- The entry at row `t` of `df['Close'].rolling(window=s).mean()`
(data_fetcher.py line 93): NaN (here `none`) until a full window of `s`
closes is available, then the mean of the trailing `s` closes. -/
def smaAt (s : ℕ) (c : List ℚ) (t : ℕ) : Option ℚ :=
  if t + 1 < s then none
  else some (((c.drop (t + 1 - s)).take s).sum / s)

/-- Comparison `x > o` under pandas/NumPy NaN semantics: False when `o` is NaN. -/
def nanGT (x : ℚ) (o : Option ℚ) : Bool :=
  match o with
  | some a => decide (a < x)
  | none => false

/-- Comparison `x < o` under NaN semantics: False when `o` is NaN. -/
def nanLT (x : ℚ) (o : Option ℚ) : Bool :=
  match o with
  | some a => decide (x < a)
  | none => false

/-- Comparison `o <= p` under NaN semantics: False when either side is NaN. -/
def nanLE (o p : Option ℚ) : Bool :=
  match o, p with
  | some x, some b => decide (x ≤ b)
  | _, _ => false

/-- Comparison `o >= p` under NaN semantics: False when either side is NaN. -/
def nanGE (o p : Option ℚ) : Bool :=
  match o, p with
  | some x, some b => decide (b ≤ x)
  | _, _ => false

/-- The column `df[EMA].shift(1)` read at row `t`: NaN at row 0, the previous EMA
value afterwards. -/
def shiftEma (e : ℕ) (c : List ℚ) (t : ℕ) : Option ℚ :=
  if t = 0 then none else some ((emaList e c).getD (t - 1) 0)

/-- The column `df[SMA].shift(1)` read at row `t`: NaN at row 0, the previous SMA
entry afterwards. -/
def shiftSma (s : ℕ) (c : List ℚ) (t : ℕ) : Option ℚ :=
  if t = 0 then none else smaAt s c (t - 1)

/-- Row `t` of the `'Crossover'` column (data_fetcher.py lines 96-104):
the nested `np.where`, with every comparison against NaN evaluating to
False.  The outer branch (GOLDEN) is tested first, exactly as in the
source. -/
def crossAt (e s : ℕ) (c : List ℚ) (t : ℕ) : Cross :=
  if nanGT ((emaList e c).getD t 0) (smaAt s c t) && nanLE (shiftEma e c t) (shiftSma s c t) then
    Cross.GOLDEN
  else if nanLT ((emaList e c).getD t 0) (smaAt s c t) && nanGE (shiftEma e c t) (shiftSma s c t) then
    Cross.DEATH
  else
    Cross.NONE

/-- The whole `'Crossover'` column: one entry per row of the frame. -/
def crossoverColumn (e s : ℕ) (c : List ℚ) : List Cross :=
  (List.range c.length).map (crossAt e s c)

/-- The crossover entries of the first `n` rows that are not `NONE`. -/
def eventsUpTo (e s : ℕ) (c : List ℚ) (n : ℕ) : List Cross :=
  ((List.range n).map (crossAt e s c)).filter (fun x => decide (x ≠ Cross.NONE))

/-- The non-`NONE` crossover states of the whole series, in row order. -/
def eventList (e s : ℕ) (c : List ℚ) : List Cross :=
  eventsUpTo e s c c.length

lemma emaFrom_length (p : ℕ) : ∀ (xs : List ℚ) (prev : ℚ),
    (emaFrom p prev xs).length = xs.length
  | [], _ => rfl
  | x :: xs, prev => by
    simp [emaFrom, emaFrom_length p xs]

lemma emaList_length (p : ℕ) (c : List ℚ) : (emaList p c).length = c.length := by
  cases c <;> simp [emaList, emaFrom_length]

lemma emaFrom_getD_zero (p : ℕ) (prev : ℚ) (xs : List ℚ) (h : xs ≠ []) :
    (emaFrom p prev xs).getD 0 0 = emaStep p prev (xs.getD 0 0) := by
  cases xs with
  | nil => exact absurd rfl h
  | cons x xs => simp [emaFrom]

lemma emaFrom_getD_succ (p : ℕ) : ∀ (xs : List ℚ) (prev : ℚ) (i : ℕ), i + 1 < xs.length →
    (emaFrom p prev xs).getD (i + 1) 0 =
      emaStep p ((emaFrom p prev xs).getD i 0) (xs.getD (i + 1) 0)
  | [], _, _, h => by simp at h
  | x :: xs, prev, 0, h => by
    have hx : xs ≠ [] := by
      cases xs
      · simp at h
      · exact List.cons_ne_nil _ _
    simp only [emaFrom, List.getD_cons_succ, List.getD_cons_zero]
    exact emaFrom_getD_zero p _ xs hx
  | x :: xs, prev, i + 1, h => by
    have ih := emaFrom_getD_succ p xs (emaStep p prev x) i (by simpa using h)
    simp only [emaFrom, List.getD_cons_succ]
    exact ih

/-- Claim C2: the EMA column satisfies the `adjust=false` recursive form,
`EMA[0] = close[0]` and `EMA[t] = α·close[t] + (1−α)·EMA[t−1]` with
`α = 2/(emaPeriod+1)`, and is defined at every row of the series. -/
theorem ema_recurrence (e : ℕ) (c : List ℚ) :
    (emaList e c).length = c.length ∧
    (emaList e c).getD 0 0 = c.getD 0 0 ∧
    ∀ t, t + 1 < c.length →
      (emaList e c).getD (t + 1) 0 =
        alpha e * c.getD (t + 1) 0 + (1 - alpha e) * (emaList e c).getD t 0 := by
  refine ⟨emaList_length e c, ?_, ?_⟩
  · cases c <;> simp [emaList]
  · intro t ht
    cases c with
    | nil => simp at ht
    | cons x xs =>
      cases t with
      | zero =>
        have hx : xs ≠ [] := by
          cases xs
          · simp at ht
          · exact List.cons_ne_nil _ _
        simp only [emaList, List.getD_cons_succ, List.getD_cons_zero]
        rw [emaFrom_getD_zero e x xs hx, emaStep]
      | succ u =>
        have hu : u + 1 < xs.length := by simpa using ht
        simp only [emaList, List.getD_cons_succ]
        rw [emaFrom_getD_succ e xs x u hu, emaStep]

lemma take_sum_eq : ∀ (s : ℕ) (l : List ℚ), (l.take s).sum = ∑ i ∈ Finset.range s, l.getD i 0
  | 0, _ => by simp
  | s + 1, [] => by simp
  | s + 1, x :: xs => by
    rw [Finset.sum_range_succ']
    simp [take_sum_eq s xs, add_comm]

lemma getD_drop_q (l : List ℚ) (k i : ℕ) : (l.drop k).getD i 0 = l.getD (k + i) 0 := by
  rw [List.getD_eq_getElem?_getD, List.getD_eq_getElem?_getD, List.getElem?_drop]

/-- Claim C3: the SMA column is the arithmetic mean of the trailing
`smaPeriod` closes (`closes[t−smaPeriod+1..t]`) once a full window exists,
and the not-yet-computable marker `none` (not zero) at every earlier row. -/
theorem sma_spec (s : ℕ) (c : List ℚ) (t : ℕ) :
    smaAt s c t =
      if t + 1 < s then none
      else some ((∑ i ∈ Finset.range s, c.getD (t + 1 - s + i) 0) / s) := by
  unfold smaAt
  split_ifs with h
  · rfl
  · congr 1
    rw [take_sum_eq]
    congr 1
    exact Finset.sum_congr rfl fun i _ => getD_drop_q c (t + 1 - s) i

lemma smaAt_eq_none_iff (s : ℕ) (c : List ℚ) (t : ℕ) :
    smaAt s c t = none ↔ t + 1 < s := by
  unfold smaAt
  split_ifs with h <;> simp [h]

lemma crossAt_golden_iff (e s : ℕ) (c : List ℚ) (t : ℕ) :
    crossAt e s c t = Cross.GOLDEN ↔
      1 ≤ t ∧ ∃ a b, smaAt s c t = some a ∧ smaAt s c (t - 1) = some b ∧
        a < (emaList e c).getD t 0 ∧ (emaList e c).getD (t - 1) 0 ≤ b := by
  cases t with
  | zero =>
    simp [crossAt, shiftEma, shiftSma, nanLE, nanGE]
  | succ u =>
    cases h1 : smaAt s c (u + 1) with
    | none => simp [crossAt, shiftEma, shiftSma, nanGT, nanLT, h1]
    | some a =>
      cases h2 : smaAt s c u with
      | none => simp [crossAt, shiftEma, shiftSma, nanGT, nanLT, nanLE, nanGE, h1, h2]
      | some b =>
        simp only [crossAt, shiftEma, shiftSma, nanGT, nanLT, nanLE, nanGE, h1, h2,
          if_neg (Nat.succ_ne_zero u), Nat.add_sub_cancel, Bool.and_eq_true,
          decide_eq_true_eq]
        split_ifs with hg hd
        · simp only [true_iff]
          exact ⟨Nat.one_le_iff_ne_zero.mpr (Nat.succ_ne_zero u),
            a, b, rfl, rfl, hg.1, hg.2⟩
        · simp only [reduceCtorEq, false_iff]
          rintro ⟨-, a', b', ha', hb', h3, h4⟩
          cases ha'; cases hb'
          exact hg ⟨h3, h4⟩
        · simp only [reduceCtorEq, false_iff]
          rintro ⟨-, a', b', ha', hb', h3, h4⟩
          cases ha'; cases hb'
          exact hg ⟨h3, h4⟩

lemma crossAt_death_iff (e s : ℕ) (c : List ℚ) (t : ℕ) :
    crossAt e s c t = Cross.DEATH ↔
      1 ≤ t ∧ ∃ a b, smaAt s c t = some a ∧ smaAt s c (t - 1) = some b ∧
        (emaList e c).getD t 0 < a ∧ b ≤ (emaList e c).getD (t - 1) 0 := by
  cases t with
  | zero =>
    simp [crossAt, shiftEma, shiftSma, nanLE, nanGE]
  | succ u =>
    cases h1 : smaAt s c (u + 1) with
    | none => simp [crossAt, shiftEma, shiftSma, nanGT, nanLT, h1]
    | some a =>
      cases h2 : smaAt s c u with
      | none => simp [crossAt, shiftEma, shiftSma, nanGT, nanLT, nanLE, nanGE, h1, h2]
      | some b =>
        simp only [crossAt, shiftEma, shiftSma, nanGT, nanLT, nanLE, nanGE, h1, h2,
          if_neg (Nat.succ_ne_zero u), Nat.add_sub_cancel, Bool.and_eq_true,
          decide_eq_true_eq]
        split_ifs with hg hd
        · simp only [reduceCtorEq, false_iff]
          rintro ⟨-, a', b', ha', hb', h3, h4⟩
          cases ha'; cases hb'
          exact absurd hg.1 (not_lt.mpr (le_of_lt h3))
        · simp only [true_iff]
          exact ⟨Nat.one_le_iff_ne_zero.mpr (Nat.succ_ne_zero u),
            a, b, rfl, rfl, hd.1, hd.2⟩
        · simp only [reduceCtorEq, false_iff]
          rintro ⟨-, a', b', ha', hb', h3, h4⟩
          cases ha'; cases hb'
          exact hd ⟨h3, h4⟩

/-- Claim C1: the crossover classification at row `t` is GOLDEN exactly when
`EMA[t] > SMA[t]` and `EMA[t−1] ≤ SMA[t−1]`, DEATH exactly when
`EMA[t] < SMA[t]` and `EMA[t−1] ≥ SMA[t−1]` (both requiring `t ≥ 1` and SMA
defined at `t` and `t−1`), and NONE at row 0 and wherever SMA is undefined. -/
theorem crossover_classification (e s : ℕ) (c : List ℚ) (t : ℕ) :
    (crossAt e s c t = Cross.GOLDEN ↔
      1 ≤ t ∧ ∃ a b, smaAt s c t = some a ∧ smaAt s c (t - 1) = some b ∧
        a < (emaList e c).getD t 0 ∧ (emaList e c).getD (t - 1) 0 ≤ b) ∧
    (crossAt e s c t = Cross.DEATH ↔
      1 ≤ t ∧ ∃ a b, smaAt s c t = some a ∧ smaAt s c (t - 1) = some b ∧
        (emaList e c).getD t 0 < a ∧ b ≤ (emaList e c).getD (t - 1) 0) ∧
    ((t = 0 ∨ smaAt s c t = none ∨ smaAt s c (t - 1) = none) →
      crossAt e s c t = Cross.NONE) := by
  refine ⟨crossAt_golden_iff e s c t, crossAt_death_iff e s c t, ?_⟩
  intro h
  cases hc : crossAt e s c t with
  | NONE => rfl
  | GOLDEN =>
    rcases (crossAt_golden_iff e s c t).mp hc with ⟨h1, a, b, ha, hb, -, -⟩
    rcases h with h0 | hn | hp
    · omega
    · rw [hn] at ha; cases ha
    · rw [hp] at hb; cases hb
  | DEATH =>
    rcases (crossAt_death_iff e s c t).mp hc with ⟨h1, a, b, ha, hb, -, -⟩
    rcases h with h0 | hn | hp
    · omega
    · rw [hn] at ha; cases ha
    · rw [hp] at hb; cases hb

/-- The sign of `EMA[t] − SMA[t]` as a boolean (`true` when EMA is above),
reading the SMA entry with a default; meaningful at rows where SMA is
defined. -/
def sb (e s : ℕ) (c : List ℚ) (t : ℕ) : Bool :=
  decide ((smaAt s c t).getD 0 < (emaList e c).getD t 0)

/-- The event direction determined by the sign of `EMA − SMA` after the
crossing. -/
def dirOf (b : Bool) : Cross :=
  if b then Cross.GOLDEN else Cross.DEATH

/-- Tie-freeness: `EMA[t] ≠ SMA[t]` at every row of the series where SMA is defined. -/
def tieFreeB (e s : ℕ) (c : List ℚ) : Bool :=
  (List.range c.length).all fun t =>
    match smaAt s c t with
    | none => true
    | some a => decide ((emaList e c).getD t 0 ≠ a)

lemma tieFreeB_ne (e s : ℕ) (c : List ℚ) (htf : tieFreeB e s c = true)
    {t : ℕ} (ht : t < c.length) {a : ℚ} (ha : smaAt s c t = some a) :
    (emaList e c).getD t 0 ≠ a := by
  have := List.all_eq_true.mp htf t (List.mem_range.mpr ht)
  rw [ha] at this
  exact of_decide_eq_true this

lemma sb_eq_true_iff (e s : ℕ) (c : List ℚ) {t : ℕ} {a : ℚ}
    (ha : smaAt s c t = some a) :
    sb e s c t = true ↔ a < (emaList e c).getD t 0 := by
  rw [sb, ha]
  simp

lemma sb_eq_false_iff (e s : ℕ) (c : List ℚ) (htf : tieFreeB e s c = true)
    {t : ℕ} (ht : t < c.length) {a : ℚ} (ha : smaAt s c t = some a) :
    sb e s c t = false ↔ (emaList e c).getD t 0 < a := by
  have hne := tieFreeB_ne e s c htf ht ha
  rw [sb, ha]
  simp only [Option.getD_some, decide_eq_false_iff_not, not_lt]
  exact ⟨fun h => lt_of_le_of_ne h hne, le_of_lt⟩

/-- Under tie-freeness, at a row with SMA defined at `t` and `t−1`, the
crossover state is exactly a sign change of `EMA − SMA`. -/
lemma crossAt_step_char (e s : ℕ) (c : List ℚ) (htf : tieFreeB e s c = true)
    {t : ℕ} (h1 : 1 ≤ t) (ht : t < c.length)
    {a b : ℚ} (ha : smaAt s c t = some a) (hb : smaAt s c (t - 1) = some b) :
    (crossAt e s c t = Cross.GOLDEN ↔ sb e s c (t - 1) = false ∧ sb e s c t = true) ∧
    (crossAt e s c t = Cross.DEATH ↔ sb e s c (t - 1) = true ∧ sb e s c t = false) ∧
    (crossAt e s c t = Cross.NONE ↔ sb e s c (t - 1) = sb e s c t) := by
  have ht' : t - 1 < c.length := lt_of_le_of_lt (Nat.sub_le t 1) ht
  have hgold : crossAt e s c t = Cross.GOLDEN ↔
      sb e s c (t - 1) = false ∧ sb e s c t = true := by
    rw [crossAt_golden_iff]
    constructor
    · rintro ⟨-, a', b', ha', hb', hlt, hle⟩
      rw [ha] at ha'; cases ha'
      rw [hb] at hb'; cases hb'
      refine ⟨?_, (sb_eq_true_iff e s c ha).mpr hlt⟩
      have hne := tieFreeB_ne e s c htf ht' hb
      exact (sb_eq_false_iff e s c htf ht' hb).mpr (lt_of_le_of_ne hle hne)
    · rintro ⟨hf, htr⟩
      exact ⟨h1, a, b, ha, hb, (sb_eq_true_iff e s c ha).mp htr,
        le_of_lt ((sb_eq_false_iff e s c htf ht' hb).mp hf)⟩
  have hdeath : crossAt e s c t = Cross.DEATH ↔
      sb e s c (t - 1) = true ∧ sb e s c t = false := by
    rw [crossAt_death_iff]
    constructor
    · rintro ⟨-, a', b', ha', hb', hlt, hle⟩
      rw [ha] at ha'; cases ha'
      rw [hb] at hb'; cases hb'
      refine ⟨?_, (sb_eq_false_iff e s c htf ht ha).mpr hlt⟩
      have hne := tieFreeB_ne e s c htf ht' hb
      exact (sb_eq_true_iff e s c hb).mpr (lt_of_le_of_ne hle (Ne.symm hne))
    · rintro ⟨htr, hf⟩
      exact ⟨h1, a, b, ha, hb, (sb_eq_false_iff e s c htf ht ha).mp hf,
        le_of_lt ((sb_eq_true_iff e s c hb).mp htr)⟩
  refine ⟨hgold, hdeath, ?_⟩
  constructor
  · intro hn
    cases hp : sb e s c (t - 1) <;> cases hq : sb e s c t
    · rfl
    · have := hgold.mpr ⟨hp, hq⟩
      rw [hn] at this
      cases this
    · have := hdeath.mpr ⟨hp, hq⟩
      rw [hn] at this
      cases this
    · rfl
  · intro hpq
    cases hn : crossAt e s c t with
    | NONE => rfl
    | GOLDEN =>
      rcases hgold.mp hn with ⟨hp, hq⟩
      rw [hp, hq] at hpq
      cases hpq
    | DEATH =>
      rcases hdeath.mp hn with ⟨hp, hq⟩
      rw [hp, hq] at hpq
      cases hpq

lemma eventsUpTo_succ (e s : ℕ) (c : List ℚ) (n : ℕ) :
    eventsUpTo e s c (n + 1) =
      eventsUpTo e s c n ++
        (if crossAt e s c n = Cross.NONE then [] else [crossAt e s c n]) := by
  unfold eventsUpTo
  rw [List.range_succ, List.map_append, List.filter_append]
  congr 1
  simp only [List.map_cons, List.map_nil]
  split_ifs with h <;> simp [List.filter, h]

/-- The event prefix invariant: the events seen in the first `n` rows never
repeat a direction consecutively, and the last one matches the current sign
of `EMA − SMA`. -/
lemma events_invariant (e s : ℕ) (c : List ℚ) (htf : tieFreeB e s c = true) :
    ∀ n, n ≤ c.length →
      (eventsUpTo e s c n).Chain' (fun a b => a ≠ b) ∧
      ∀ v, (eventsUpTo e s c n).getLast? = some v →
        s + 1 ≤ n ∧ v = dirOf (sb e s c (n - 1))
  | 0, _ => by simp [eventsUpTo]
  | n + 1, hn => by
    obtain ⟨ih1, ih2⟩ := events_invariant e s c htf n (Nat.le_of_succ_le hn)
    have hnc : n < c.length := hn
    rw [eventsUpTo_succ]
    by_cases hnone : crossAt e s c n = Cross.NONE
    · rw [if_pos hnone, List.append_nil]
      refine ⟨ih1, fun v hv => ?_⟩
      obtain ⟨hs, hvd⟩ := ih2 v hv
      have h1 : 1 ≤ n := le_trans (Nat.le_add_left 1 s) hs
      have ha : ∃ a, smaAt s c n = some a := by
        cases h : smaAt s c n with
        | none => exact absurd ((smaAt_eq_none_iff s c n).mp h) (by omega)
        | some a => exact ⟨a, rfl⟩
      have hb : ∃ b, smaAt s c (n - 1) = some b := by
        cases h : smaAt s c (n - 1) with
        | none =>
          have := (smaAt_eq_none_iff s c (n - 1)).mp h
          exact absurd this (by omega)
        | some b => exact ⟨b, rfl⟩
      obtain ⟨a, ha⟩ := ha
      obtain ⟨b, hb⟩ := hb
      have hchar := crossAt_step_char e s c htf h1 hnc ha hb
      have hsgn := hchar.2.2.mp hnone
      refine ⟨Nat.le_succ_of_le hs, ?_⟩
      rw [Nat.add_sub_cancel, ← hsgn]
      exact hvd
    · rw [if_neg hnone]
      -- the new row is an event; find its direction from the step lemma
      have hev : crossAt e s c n = Cross.GOLDEN ∨ crossAt e s c n = Cross.DEATH := by
        cases h : crossAt e s c n with
        | NONE => exact absurd h hnone
        | GOLDEN => exact Or.inl rfl
        | DEATH => exact Or.inr rfl
      -- definedness and index facts extracted from the classification
      have hfacts : 1 ≤ n ∧ (∃ a, smaAt s c n = some a) ∧
          (∃ b, smaAt s c (n - 1) = some b) := by
        rcases hev with h | h
        · rcases (crossAt_golden_iff e s c n).mp h with ⟨h1, a, b, ha, hb, -, -⟩
          exact ⟨h1, ⟨a, ha⟩, ⟨b, hb⟩⟩
        · rcases (crossAt_death_iff e s c n).mp h with ⟨h1, a, b, ha, hb, -, -⟩
          exact ⟨h1, ⟨a, ha⟩, ⟨b, hb⟩⟩
      obtain ⟨h1, ⟨a, ha⟩, ⟨b, hb⟩⟩ := hfacts
      have hs1 : s + 1 ≤ n + 1 := by
        have : ¬ (n - 1) + 1 < s := by
          intro hlt
          rw [(smaAt_eq_none_iff s c (n - 1)).mpr hlt] at hb
          cases hb
        omega
      have hchar := crossAt_step_char e s c htf h1 hnc ha hb
      have hlast : ∀ v, (eventsUpTo e s c n).getLast? = some v →
          v ≠ crossAt e s c n := by
        intro v hv
        obtain ⟨-, hvd⟩ := ih2 v hv
        rcases hev with h | h
        · obtain ⟨hp, -⟩ := hchar.1.mp h
          rw [h, hvd, hp]
          simp [dirOf]
        · obtain ⟨hp, -⟩ := hchar.2.1.mp h
          rw [h, hvd, hp]
          simp [dirOf]
      constructor
      · rw [List.chain'_append]
        refine ⟨ih1, List.chain'_singleton _, fun x hx y hy => ?_⟩
        simp only [List.head?_cons, Option.mem_def, Option.some.injEq] at hy
        subst hy
        exact hlast x hx
      · intro v hv
        rw [List.getLast?_concat] at hv
        cases hv
        refine ⟨hs1, ?_⟩
        rw [Nat.add_sub_cancel]
        rcases hev with h | h
        · obtain ⟨-, hq⟩ := hchar.1.mp h
          rw [h, hq]
          rfl
        · obtain ⟨-, hq⟩ := hchar.2.1.mp h
          rw [h, hq]
          rfl

/-- In an alternating list of GOLDEN/DEATH values the two counts differ by
at most one (strengthened with head information for the induction). -/
lemma alt_count_aux : ∀ l : List Cross, l.Chain' (fun a b => a ≠ b) →
    (∀ x ∈ l, x ≠ Cross.NONE) →
    (l.count Cross.GOLDEN ≤ l.count Cross.DEATH + 1 ∧
     l.count Cross.DEATH ≤ l.count Cross.GOLDEN + 1) ∧
    (l.head? = some Cross.GOLDEN → l.count Cross.DEATH ≤ l.count Cross.GOLDEN) ∧
    (l.head? = some Cross.DEATH → l.count Cross.GOLDEN ≤ l.count Cross.DEATH)
  | [], _, _ => by simp
  | x :: rest, hch, hne => by
    obtain ⟨hhd, hch'⟩ := List.chain'_cons'.mp hch
    have ihne : ∀ y ∈ rest, y ≠ Cross.NONE := fun y hy => hne y (List.mem_cons_of_mem x hy)
    obtain ⟨⟨ih1, ih2⟩, ihg, ihd⟩ := alt_count_aux rest hch' ihne
    have hx : x = Cross.GOLDEN ∨ x = Cross.DEATH := by
      cases hx : x with
      | NONE => exact absurd hx (hne x (List.mem_cons_self x rest))
      | GOLDEN => exact Or.inl rfl
      | DEATH => exact Or.inr rfl
    rcases hx with hx | hx <;> subst hx
    · -- head GOLDEN: the rest may not start with GOLDEN
      have hrg : rest.count Cross.GOLDEN ≤ rest.count Cross.DEATH := by
        match rest, ihne, ihd, hhd with
        | [], _, _, _ => simp
        | Cross.NONE :: ys, ihne', _, _ =>
          exact absurd rfl (ihne' Cross.NONE (List.mem_cons_self _ _))
        | Cross.GOLDEN :: ys, _, _, hhd' =>
          exact absurd rfl (hhd' Cross.GOLDEN rfl)
        | Cross.DEATH :: ys, _, ihd', _ => exact ihd' rfl
      refine ⟨⟨?_, ?_⟩, ?_, ?_⟩
      · simp only [List.count_cons]
        simp only [beq_iff_eq, reduceCtorEq, if_true, if_false, reduceIte]
        omega
      · simp only [List.count_cons]
        simp only [beq_iff_eq, reduceCtorEq, if_true, if_false, reduceIte]
        omega
      · intro _
        simp only [List.count_cons]
        simp only [beq_iff_eq, reduceCtorEq, if_true, if_false, reduceIte]
        omega
      · intro h
        simp at h
    · -- head DEATH: the rest may not start with DEATH
      have hrd : rest.count Cross.DEATH ≤ rest.count Cross.GOLDEN := by
        match rest, ihne, ihg, hhd with
        | [], _, _, _ => simp
        | Cross.NONE :: ys, ihne', _, _ =>
          exact absurd rfl (ihne' Cross.NONE (List.mem_cons_self _ _))
        | Cross.DEATH :: ys, _, _, hhd' =>
          exact absurd rfl (hhd' Cross.DEATH rfl)
        | Cross.GOLDEN :: ys, _, ihg', _ => exact ihg' rfl
      refine ⟨⟨?_, ?_⟩, ?_, ?_⟩
      · simp only [List.count_cons]
        simp only [beq_iff_eq, reduceCtorEq, if_true, if_false, reduceIte]
        omega
      · simp only [List.count_cons]
        simp only [beq_iff_eq, reduceCtorEq, if_true, if_false, reduceIte]
        omega
      · intro h
        simp at h
      · intro _
        simp only [List.count_cons]
        simp only [beq_iff_eq, reduceCtorEq, if_true, if_false, reduceIte]
        omega

lemma eventList_mem_ne_none (e s : ℕ) (c : List ℚ) :
    ∀ x ∈ eventList e s c, x ≠ Cross.NONE := by
  intro x hx
  rw [eventList, eventsUpTo] at hx
  exact of_decide_eq_true (List.mem_filter.mp hx).2

/-- Claim C4 (amended): provided EMA and SMA never tie at a row where SMA is
defined, the detected events strictly alternate in direction, and the
GOLDEN and DEATH counts differ by at most one. -/
theorem crossover_alternating (e s : ℕ) (c : List ℚ) (htf : tieFreeB e s c = true) :
    (eventList e s c).Chain' (fun a b => a ≠ b) ∧
    (eventList e s c).count Cross.GOLDEN ≤ (eventList e s c).count Cross.DEATH + 1 ∧
    (eventList e s c).count Cross.DEATH ≤ (eventList e s c).count Cross.GOLDEN + 1 := by
  have hch := (events_invariant e s c htf c.length (le_refl _)).1
  have hne := eventList_mem_ne_none e s c
  have hcount := alt_count_aux (eventList e s c) hch hne
  exact ⟨hch, hcount.1.1, hcount.1.2⟩

/-- Witness for the amended C4 at a concrete tie-free series. -/
theorem crossover_alternating_witness :
    tieFreeB 1 2 [10, 9, 11] = true ∧
    ((eventList 1 2 [10, 9, 11]).Chain' (fun a b => a ≠ b) ∧
     (eventList 1 2 [10, 9, 11]).count Cross.GOLDEN ≤
       (eventList 1 2 [10, 9, 11]).count Cross.DEATH + 1 ∧
     (eventList 1 2 [10, 9, 11]).count Cross.DEATH ≤
       (eventList 1 2 [10, 9, 11]).count Cross.GOLDEN + 1) :=
  ⟨by norm_num [tieFreeB, List.range_succ, smaAt, emaList, emaFrom, emaStep, alpha],
   crossover_alternating 1 2 [10, 9, 11]
     (by norm_num [tieFreeB, List.range_succ, smaAt, emaList, emaFrom, emaStep, alpha])⟩

/-- Counterexample to C4 as stated: on closes `[10, 9, 10, 10, 11]` with
`emaPeriod = 1`, `smaPeriod = 2` the EMA−SMA difference touches zero between
two upward crossings, so the series produces two GOLDEN events and no DEATH
event: the counts differ by two and the directions do not alternate. -/
theorem crossover_alternating_cex :
    eventList 1 2 [10, 9, 10, 10, 11] = [Cross.GOLDEN, Cross.GOLDEN] ∧
    ¬ ((eventList 1 2 [10, 9, 10, 10, 11]).count Cross.GOLDEN ≤
        (eventList 1 2 [10, 9, 10, 10, 11]).count Cross.DEATH + 1 ∧
       (eventList 1 2 [10, 9, 10, 10, 11]).Chain' (fun a b => a ≠ b)) := by
  have h : eventList 1 2 [10, 9, 10, 10, 11] = [Cross.GOLDEN, Cross.GOLDEN] := by
    norm_num [eventList, eventsUpTo, List.range_succ, crossAt, nanGT, nanLE, nanLT, nanGE,
      shiftEma, shiftSma, smaAt, emaList, emaFrom, emaStep, alpha]
    decide
  refine ⟨h, ?_⟩
  rw [h]
  decide

/-- A key of a column added by `calculate_indicators`.  The source names the
columns with the f-strings `f'EMA{ema_period}'`, `f'SMA{sma_period}'` and
`'Crossover'`; each family of names is injective in its period and the three
families are disjoint, so the names are modelled as tagged keys. -/
inductive ColKey where
  | ema : ℕ → ColKey
  | sma : ℕ → ColKey
  | crossover : ColKey
deriving DecidableEq

/-- The value of an added column: a numeric column, a NaN-bearing numeric
column, or the crossover-state column. -/
inductive ColVal where
  | qs : List ℚ → ColVal
  | opts : List (Option ℚ) → ColVal
  | crosses : List Cross → ColVal
deriving DecidableEq

/-- Column assignment `df[name] = value` on the extra columns: replace the column if the key
exists, otherwise append it at the end, as pandas column assignment does. -/
def setCol (k : ColKey) (v : ColVal) : List (ColKey × ColVal) → List (ColKey × ColVal)
  | [] => [(k, v)]
  | (k', w) :: rest => if k' = k then (k', v) :: rest else (k', w) :: setCol k v rest

/-- A pandas DataFrame of one symbol's history as the code uses it: the
date index and the OHLCV columns fetched by yfinance, plus whatever columns
have been assigned since (`extra`). -/
structure Frame where
  dates : List ℤ
  open_ : List ℚ
  high : List ℚ
  low : List ℚ
  close : List ℚ
  volume : List ℚ
  extra : List (ColKey × ColVal)
deriving DecidableEq

/-- The function `calculate_indicators` (data_fetcher.py lines 87-106).  Returns `none`
for a missing or empty frame; otherwise assigns the EMA, SMA and Crossover
columns (computed from the Close column) into the frame and returns it.
The Python function mutates its argument in place and returns that same
object, so the returned frame is also the post-call state of the input. -/
def calculate_indicators (df : Frame) (ema_period sma_period : ℕ) : Option Frame :=
  if df.close.isEmpty then none
  else
    some { df with extra := (setCol ColKey.crossover
      (ColVal.crosses (crossoverColumn ema_period sma_period df.close))
      (setCol (ColKey.sma sma_period)
        (ColVal.opts ((List.range df.close.length).map (smaAt sma_period df.close)))
        (setCol (ColKey.ema ema_period)
          (ColVal.qs (emaList ema_period df.close))
          df.extra))) }

lemma setCol_setCol_same (k : ColKey) (v w : ColVal) :
    ∀ l : List (ColKey × ColVal), setCol k v (setCol k w l) = setCol k v l
  | [] => by simp [setCol]
  | (k', w') :: rest => by
    by_cases h : k' = k
    · simp [setCol, h]
    · simp only [setCol, if_neg h]
      rw [setCol_setCol_same k v w rest]

/-- Read the value stored under a key among the extra columns. -/
def lookupCol (k : ColKey) : List (ColKey × ColVal) → Option ColVal
  | [] => none
  | (k', w) :: rest => if k' = k then some w else lookupCol k rest

lemma lookupCol_setCol_self (k : ColKey) (v : ColVal) :
    ∀ l, lookupCol k (setCol k v l) = some v
  | [] => by simp [setCol, lookupCol]
  | (k', w) :: rest => by
    by_cases h : k' = k
    · simp [setCol, lookupCol, h]
    · simp [setCol, lookupCol, h, lookupCol_setCol_self k v rest]

lemma lookupCol_setCol_ne (k k' : ColKey) (v : ColVal) (h : k ≠ k') :
    ∀ l, lookupCol k (setCol k' v l) = lookupCol k l
  | [] => by simp [setCol, lookupCol, Ne.symm h]
  | (k₀, w) :: rest => by
    by_cases h0 : k₀ = k'
    · subst h0
      simp [setCol, lookupCol, Ne.symm h]
    · by_cases h1 : k₀ = k <;>
        simp [setCol, lookupCol, h0, h1, h, lookupCol_setCol_ne k k' v h rest]

lemma setCol_id_of_lookup (k : ColKey) (v : ColVal) :
    ∀ l, lookupCol k l = some v → setCol k v l = l
  | [] => by simp [lookupCol]
  | (k', w) :: rest => by
    by_cases h : k' = k
    · subst h
      intro hl
      simp only [lookupCol, if_pos rfl, eq_self_iff_true, if_true,
        Option.some.injEq] at hl
      simp [setCol, hl]
    · intro hl
      simp only [lookupCol, if_neg h] at hl
      simp [setCol, h, setCol_id_of_lookup k v rest hl]

lemma setCol_three_idem (E S C : ColKey) (ev sv cv : ColVal) (L : List (ColKey × ColVal))
    (hES : E ≠ S) (hEC : E ≠ C) (hSC : S ≠ C) :
    setCol C cv (setCol S sv (setCol E ev (setCol C cv (setCol S sv (setCol E ev L))))) =
      setCol C cv (setCol S sv (setCol E ev L)) := by
  have hE : lookupCol E (setCol C cv (setCol S sv (setCol E ev L))) = some ev := by
    rw [lookupCol_setCol_ne E C cv hEC, lookupCol_setCol_ne E S sv hES,
      lookupCol_setCol_self]
  have hS : lookupCol S (setCol C cv (setCol S sv (setCol E ev L))) = some sv := by
    rw [lookupCol_setCol_ne S C cv hSC, lookupCol_setCol_self]
  rw [setCol_id_of_lookup E ev _ hE, setCol_id_of_lookup S sv _ hS,
    setCol_id_of_lookup C cv _ (lookupCol_setCol_self C cv _)]

/-- Claim C10: calling `calculate_indicators` again on the frame produced by
a first call (same periods, unmutated price data) returns exactly that frame:
the indicator columns are recomputed from the unchanged Close column and
overwrite themselves with the same values. -/
theorem compute_idempotent (df : Frame) (e s : ℕ) (df₁ : Frame)
    (h : calculate_indicators df e s = some df₁) :
    calculate_indicators df₁ e s = some df₁ := by
  unfold calculate_indicators at h
  by_cases hne : df.close.isEmpty
  · rw [if_pos hne] at h
    cases h
  · rw [if_neg hne] at h
    rw [Option.some.injEq] at h
    subst h
    unfold calculate_indicators
    dsimp only
    rw [if_neg hne]
    simp only [Option.some.injEq, Frame.mk.injEq, true_and]
    exact setCol_three_idem (ColKey.ema e) (ColKey.sma s) ColKey.crossover _ _ _ df.extra
      (by simp) (by simp) (by simp)

/-- Concrete frame for exercising `calculate_indicators`: two rows of price
history with no extra columns. -/
def frameC10 : Frame :=
  { dates := [0, 1], open_ := [1, 1], high := [1, 1], low := [1, 1],
    close := [10, 9], volume := [1, 1], extra := [] }

/-- The frame `calculate_indicators frameC10 1 1` produces: the same price
data with the EMA1, SMA1 and Crossover columns assigned. -/
def frameC10' : Frame :=
  { frameC10 with extra :=
      [(ColKey.ema 1, ColVal.qs [10, 9]),
       (ColKey.sma 1, ColVal.opts [some 10, some 9]),
       (ColKey.crossover, ColVal.crosses [Cross.NONE, Cross.NONE])] }

/-- Witness for C10 at a concrete two-row frame. -/
theorem compute_idempotent_witness :
    calculate_indicators frameC10 1 1 = some frameC10' ∧
    calculate_indicators frameC10' 1 1 = some frameC10' :=
  have h : calculate_indicators frameC10 1 1 = some frameC10' := by
    norm_num [calculate_indicators, frameC10, frameC10', setCol, crossoverColumn,
      List.range_succ, crossAt, nanGT, nanLE, nanLT, nanGE, shiftEma, shiftSma,
      smaAt, emaList, emaFrom, emaStep, alpha]
    simp
  ⟨h, compute_idempotent frameC10 1 1 frameC10' h⟩

/-- Claim C6 (amended): `calculate_indicators` leaves the date index and the
original OHLCV columns unchanged, but it is not free of effects on its input:
it assigns the indicator columns into the frame it was given and returns that
same frame. -/
theorem compute_preserves_ohlcv (df : Frame) (e s : ℕ) (df' : Frame)
    (h : calculate_indicators df e s = some df') :
    df'.dates = df.dates ∧ df'.open_ = df.open_ ∧ df'.high = df.high ∧
    df'.low = df.low ∧ df'.close = df.close ∧ df'.volume = df.volume := by
  unfold calculate_indicators at h
  by_cases hne : df.close.isEmpty
  · rw [if_pos hne] at h
    cases h
  · rw [if_neg hne] at h
    rw [Option.some.injEq] at h
    subst h
    exact ⟨rfl, rfl, rfl, rfl, rfl, rfl⟩

/-- Concrete frame for the C6 counterexample. -/
def frameC6 : Frame :=
  { dates := [0, 1], open_ := [2, 2], high := [2, 2], low := [2, 2],
    close := [10, 9], volume := [3, 3], extra := [] }

/-- Counterexample to C6 as stated: `calculate_indicators` does have a side
effect on its input.  In Python the column assignments mutate the argument
frame in place and the function returns that same object, so the post-call
state of the input is the returned frame — and on a concrete two-row frame
that state differs from the frame passed in (three indicator columns were
added), while the call does succeed. -/
theorem compute_mutates_input :
    calculate_indicators frameC6 1 1 ≠ some frameC6 ∧
    (calculate_indicators frameC6 1 1).isSome = true := by
  have h : calculate_indicators frameC6 1 1 =
      some { frameC6 with extra :=
        [(ColKey.ema 1, ColVal.qs [10, 9]),
         (ColKey.sma 1, ColVal.opts [some 10, some 9]),
         (ColKey.crossover, ColVal.crosses [Cross.NONE, Cross.NONE])] } := by
    norm_num [calculate_indicators, frameC6, setCol, crossoverColumn,
      List.range_succ, crossAt, nanGT, nanLE, nanLT, nanGE, shiftEma, shiftSma,
      smaAt, emaList, emaFrom, emaStep, alpha]
    simp
  rw [h]
  refine ⟨?_, rfl⟩
  intro hc
  rw [Option.some.injEq, Frame.mk.injEq] at hc
  cases hc.2.2.2.2.2.2

/-- Witness for the amended C6 at a concrete two-row frame. -/
theorem compute_preserves_ohlcv_witness :
    (calculate_indicators frameC10 1 1 = some frameC10') ∧
    (frameC10'.dates = frameC10.dates ∧ frameC10'.open_ = frameC10.open_ ∧
     frameC10'.high = frameC10.high ∧ frameC10'.low = frameC10.low ∧
     frameC10'.close = frameC10.close ∧ frameC10'.volume = frameC10.volume) :=
  have h : calculate_indicators frameC10 1 1 = some frameC10' := by
    norm_num [calculate_indicators, frameC10, frameC10', setCol, crossoverColumn,
      List.range_succ, crossAt, nanGT, nanLE, nanLT, nanGE, shiftEma, shiftSma,
      smaAt, emaList, emaFrom, emaStep, alpha]
    simp
  ⟨h, compute_preserves_ohlcv frameC10 1 1 frameC10' h⟩

/-- An external history source: for a symbol it either produces a frame or
raises (the `Except.error` case models an exception inside `yf.Ticker(...)
.history(...)`). -/
def Provider : Type := String → Except Unit Frame

/-- The function `fetch_stock_data` (data_fetcher.py lines 29-38): returns the frame when
the fetch succeeds and the history is non-empty; an exception is caught and
logged, and both the exception path and the empty-history path fall through
to `return None`. -/
def fetch_stock_data (prov : Provider) (symbol : String) : Option Frame :=
  match prov symbol with
  | Except.error _ => none
  | Except.ok df => if df.close.isEmpty then none else some df

/-- One row of the dashboard's `crossover_data` list (main.py lines 100-107). -/
structure Event where
  symbol : String
  crossover : Cross
  price : ℚ
  date : ℤ
  emaV : ℚ
  smaV : Option ℚ
deriving DecidableEq

/-- The row positions kept by `df.tail(N)`: the last `min N len` of the
`len` row positions. -/
def tailIndices (len N : ℕ) : List ℕ :=
  (List.range len).drop (len - N)

/-- The row positions that survive `recent_data[recent_data['Crossover'] !=
'NONE']` (main.py lines 96-97): positions of the trailing `N` rows whose
crossover entry is an event. -/
def keptIndices (col : List Cross) (len N : ℕ) : List ℕ :=
  (tailIndices len N).filter (fun t => decide (col.getD t Cross.NONE ≠ Cross.NONE))

/-- Read an extra column as a crossover-state list. -/
def crossColOf (df : Frame) : List Cross :=
  match lookupCol ColKey.crossover df.extra with
  | some (ColVal.crosses xs) => xs
  | _ => []

/-- Read the EMA extra column. -/
def emaColOf (e : ℕ) (df : Frame) : List ℚ :=
  match lookupCol (ColKey.ema e) df.extra with
  | some (ColVal.qs xs) => xs
  | _ => []

/-- Read the SMA extra column. -/
def smaColOf (s : ℕ) (df : Frame) : List (Option ℚ) :=
  match lookupCol (ColKey.sma s) df.extra with
  | some (ColVal.opts xs) => xs
  | _ => []

/-- The rows appended to `crossover_data` for one symbol (main.py lines
96-107): iterate the non-`NONE` rows of the trailing `N` rows of the frame
returned by `calculate_indicators` and record symbol, state, close, date and
the two indicator values. -/
def eventsOf (symbol : String) (e s N : ℕ) (df : Frame) : List Event :=
  (keptIndices (crossColOf df) df.close.length N).map fun t =>
    { symbol := symbol,
      crossover := (crossColOf df).getD t Cross.NONE,
      price := df.close.getD t 0,
      date := df.dates.getD t 0,
      emaV := (emaColOf e df).getD t 0,
      smaV := (smaColOf s df).getD t none }

/-- The body of the dashboard loop for one symbol (main.py lines 91-107):
fetch, then compute indicators, then collect recent crossover rows; a `None`
at either step contributes nothing. -/
def processSymbol (prov : Provider) (e s N : ℕ) (symbol : String) : List Event :=
  match fetch_stock_data prov symbol with
  | none => []
  | some df =>
    match calculate_indicators df e s with
    | none => []
    | some df' => eventsOf symbol e s N df'

/-- The dashboard loop (main.py lines 91-109) over the remaining universe,
`i` symbols having been processed already: returns the accumulated event
rows and, in order, the fractions passed to `progress_bar.progress((i + 1) /
len(self.symbols))` — one call per symbol, made whether or not the symbol
produced data. -/
def scanAux (prov : Provider) (e s N total : ℕ) : List String → ℕ → List Event × List ℚ
  | [], _ => ([], [])
  | symbol :: rest, i =>
    let evs := processSymbol prov e s N symbol
    let r := scanAux prov e s N total rest (i + 1)
    (evs ++ r.1, ((i + 1 : ℕ) : ℚ) / total :: r.2)

/-- One full dashboard scan over a symbol universe. -/
def scan (prov : Provider) (uni : List String) (e s N : ℕ) :
    List Event × List ℚ :=
  scanAux prov e s N uni.length uni 0

lemma scanAux_events (prov : Provider) (e s N total : ℕ) :
    ∀ (l : List String) (i : ℕ),
      (scanAux prov e s N total l i).1 = (l.map (processSymbol prov e s N)).flatten
  | [], _ => rfl
  | symbol :: rest, i => by
    simp [scanAux, scanAux_events prov e s N total rest (i + 1)]

lemma scanAux_progress_length (prov : Provider) (e s N total : ℕ) :
    ∀ (l : List String) (i : ℕ), (scanAux prov e s N total l i).2.length = l.length
  | [], _ => rfl
  | symbol :: rest, i => by
    simp [scanAux, scanAux_progress_length prov e s N total rest (i + 1)]

lemma scanAux_progress_getLast (prov : Provider) (e s N total : ℕ) :
    ∀ (l : List String) (i : ℕ), l ≠ [] →
      (scanAux prov e s N total l i).2.getLast? =
        some (((i + l.length : ℕ) : ℚ) / total)
  | [], _, h => absurd rfl h
  | symbol :: rest, i, _ => by
    by_cases hne : rest = []
    · subst hne
      simp [scanAux]
    · have ih := scanAux_progress_getLast prov e s N total rest (i + 1) hne
      simp only [scanAux]
      rw [List.getLast?_cons, ih]
      simp only [Option.getD_some, Option.some.injEq, List.length_cons]
      congr 2
      omega

/-- Claim C7: a symbol whose fetch raises or returns an empty history
contributes no events, leaves the other symbols' events untouched, and still
gets its progress call, so the final reported progress is 100%. -/
theorem scan_failure_isolated (prov : Provider) (e s N : ℕ)
    (xs ys : List String) (bad : String)
    (hbad : ∀ df, prov bad = Except.ok df → df.close = []) :
    (scan prov (xs ++ bad :: ys) e s N).1 = (scan prov (xs ++ ys) e s N).1 ∧
    (scan prov (xs ++ bad :: ys) e s N).2.length = (xs ++ bad :: ys).length ∧
    (scan prov (xs ++ bad :: ys) e s N).2.getLast? = some 1 := by
  have hfetch : fetch_stock_data prov bad = none := by
    unfold fetch_stock_data
    cases hp : prov bad with
    | error u => rfl
    | ok df =>
      have hc := hbad df hp
      simp [hc]
  have hproc : processSymbol prov e s N bad = [] := by
    unfold processSymbol
    rw [hfetch]
  refine ⟨?_, ?_, ?_⟩
  · rw [scan, scan, scanAux_events, scanAux_events]
    simp [hproc]
  · rw [scan, scanAux_progress_length]
  · have hlen : ((xs ++ bad :: ys).length : ℚ) ≠ 0 := by
      simp only [ne_eq, Nat.cast_eq_zero, List.length_eq_zero]
      simp
    rw [scan, scanAux_progress_getLast prov e s N (xs ++ bad :: ys).length
      (xs ++ bad :: ys) 0 (by simp)]
    rw [Nat.zero_add, div_self hlen]

/-- A provider that raises for every symbol. -/
def provFail : Provider := fun _ => Except.error ()

/-- Witness for C7: scanning `["A", "B"]` with a provider that raises on
`"B"` (and on everything else) yields the same events as scanning `["A"]`,
two progress calls, and a final progress of 1. -/
theorem scan_failure_isolated_witness :
    (scan provFail (["A"] ++ "B" :: []) 1 2 7).1 = (scan provFail (["A"] ++ []) 1 2 7).1 ∧
    (scan provFail (["A"] ++ "B" :: []) 1 2 7).2.length = (["A"] ++ "B" :: []).length ∧
    (scan provFail (["A"] ++ "B" :: []) 1 2 7).2.getLast? = some 1 :=
  scan_failure_isolated provFail 1 2 7 ["A"] [] "B" fun _ h => Except.noConfusion h

lemma range'_drop : ∀ (a n k : ℕ), (List.range' a n).drop k = List.range' (a + k) (n - k)
  | _, _, 0 => by simp
  | _, 0, _ + 1 => by simp
  | a, n + 1, k + 1 => by
    rw [List.range'_succ]
    simpa [Nat.add_assoc, Nat.add_comm 1 k] using range'_drop (a + 1) n k

lemma mem_tailIndices (len N t : ℕ) : t ∈ tailIndices len N ↔ len - N ≤ t ∧ t < len := by
  rw [tailIndices, List.range_eq_range', range'_drop, List.mem_range']
  constructor
  · rintro ⟨i, hi, rfl⟩
    omega
  · rintro ⟨h1, h2⟩
    exact ⟨t - (len - N), by omega, by omega⟩

/-- Claim C8: `lookbackDays` restricts by row count, not by calendar date:
a row position is kept exactly when it lies among the trailing `N` of the
`len` rows and its crossover entry is an event; every earlier row is
dropped even if it holds a crossover. -/
theorem lookback_row_window (col : List Cross) (len N t : ℕ) :
    t ∈ keptIndices col len N ↔
      len - N ≤ t ∧ t < len ∧ col.getD t Cross.NONE ≠ Cross.NONE := by
  rw [keptIndices, List.mem_filter, mem_tailIndices]
  simp [and_assoc]

/-- Date order used by `sort_values('Date', ascending=False)`: an event may
precede another exactly when its date is at least the other's. -/
def dateGE (a b : Event) : Prop := b.date ≤ a.date

instance : DecidableRel dateGE := fun a b => inferInstanceAs (Decidable (b.date ≤ a.date))

instance : IsTotal Event dateGE := ⟨fun a b => le_total b.date a.date⟩

instance : IsTrans Event dateGE := ⟨fun _ _ _ h₁ h₂ => le_trans h₂ h₁⟩

/-- The sort `df_crossover.sort_values('Date', ascending=False)` (main.py line 114):
sort the collected rows by date, most recent first.  The source leaves the
order of equal dates to numpy's sort, which runs as a stable insertion sort
on small arrays; the embedding is a stable insertion sort on the date key,
which is exact for such inputs and keeps equal-date rows in scan order. -/
def sort_values (l : List Event) : List Event := List.insertionSort dateGE l

/-- The direction filter plus display (main.py lines 119-132): keep the
sorted rows whose crossover state is in `signal_filter`. -/
def aggregate (l : List Event) (signal_filter : List Cross) : List Event :=
  (sort_values l).filter fun ev => decide (ev.crossover ∈ signal_filter)

/-- The "Golden Crosses" metric (main.py line 130): rows of the filtered
frame whose state is GOLDEN. -/
def goldenCount (l : List Event) (signal_filter : List Cross) : ℕ :=
  ((aggregate l signal_filter).filter fun ev => decide (ev.crossover = Cross.GOLDEN)).length

/-- The "Death Crosses" metric (main.py line 132). -/
def deathCount (l : List Event) (signal_filter : List Cross) : ℕ :=
  ((aggregate l signal_filter).filter fun ev => decide (ev.crossover = Cross.DEATH)).length

/-- Claim C5 (amended): the aggregated result is sorted by date descending
and is a permutation of the filtered events; the relative order of
equal-date events is the scan's insertion order, not symbol-ascending. -/
theorem aggregate_sorted_by_date (l : List Event) (f : List Cross) :
    List.Sorted dateGE (aggregate l f) ∧
    (aggregate l f).Perm (l.filter fun ev => decide (ev.crossover ∈ f)) := by
  constructor
  · exact List.Pairwise.filter _ (List.sorted_insertionSort dateGE l)
  · exact List.Perm.filter _ (List.perm_insertionSort dateGE l)

/-- An event detected for symbol "B", appended to the scan results first. -/
def evFirstB : Event :=
  { symbol := "B", crossover := Cross.GOLDEN, price := 1, date := 5,
    emaV := 1, smaV := some 1 }

/-- An event with the same date detected for symbol "A", appended second. -/
def evSecondA : Event :=
  { symbol := "A", crossover := Cross.DEATH, price := 1, date := 5,
    emaV := 1, smaV := some 1 }

/-- The ordering claimed by the spec: date descending with ties broken by
symbol ascending. -/
def specSortOrder (a b : Event) : Prop :=
  b.date < a.date ∨ (a.date = b.date ∧ a.symbol ≤ b.symbol)

/-- Counterexample to C5 as stated: two events with equal dates whose
symbols arrive in descending order are kept in arrival order by the date
sort, so the aggregated result is not ordered by symbol ascending within
the equal-date group. -/
theorem aggregate_tie_order_cex :
    aggregate [evFirstB, evSecondA] [Cross.GOLDEN, Cross.DEATH] = [evFirstB, evSecondA] ∧
    ¬ List.Pairwise specSortOrder
        (aggregate [evFirstB, evSecondA] [Cross.GOLDEN, Cross.DEATH]) := by
  have h : aggregate [evFirstB, evSecondA] [Cross.GOLDEN, Cross.DEATH] =
      [evFirstB, evSecondA] := by
    norm_num [aggregate, sort_values, List.insertionSort, List.orderedInsert,
      dateGE, evFirstB, evSecondA, List.filter]
  refine ⟨h, ?_⟩
  rw [h]
  intro hp
  rcases List.pairwise_cons.mp hp with ⟨hrel, -⟩
  have := hrel evSecondA (List.mem_cons_self _ _)
  rcases this with hlt | ⟨-, hle⟩
  · simp [evFirstB, evSecondA] at hlt
  · revert hle
    norm_num [evFirstB, evSecondA]
    decide

/-- Claim C9: aggregation keeps exactly the events whose direction passes
the filter, the two counts are computed over the filtered set, and an empty
filter gives an empty result with both counts zero rather than an error. -/
theorem aggregate_filter_counts (l : List Event) (f : List Cross) :
    (∀ ev, ev ∈ aggregate l f ↔ ev ∈ l ∧ ev.crossover ∈ f) ∧
    goldenCount l f =
      (((l.filter fun ev => decide (ev.crossover ∈ f)).filter
        fun ev => decide (ev.crossover = Cross.GOLDEN)).length) ∧
    deathCount l f =
      (((l.filter fun ev => decide (ev.crossover ∈ f)).filter
        fun ev => decide (ev.crossover = Cross.DEATH)).length) ∧
    aggregate l [] = [] ∧ goldenCount l [] = 0 ∧ deathCount l [] = 0 := by
  have hperm : (aggregate l f).Perm (l.filter fun ev => decide (ev.crossover ∈ f)) :=
    List.Perm.filter _ (List.perm_insertionSort dateGE l)
  have hempty : aggregate l [] = [] := by
    rw [aggregate, List.filter_eq_nil_iff]
    intro ev _
    simp
  refine ⟨?_, ?_, ?_, hempty, ?_, ?_⟩
  · intro ev
    rw [aggregate, List.mem_filter, sort_values,
      (List.perm_insertionSort dateGE l).mem_iff]
    simp
  · rw [goldenCount]
    exact (hperm.filter _).length_eq
  · rw [deathCount]
    exact (hperm.filter _).length_eq
  · rw [goldenCount, hempty]
    rfl
  · rw [deathCount, hempty]
    rfl

end StockAnalyzer
